import Mathlib

/-!
# gtoc: a table of contents for a Markdown document

A shallow embedding of `gtoc.go` and the properties of its heading scan.

Modelling conventions.

* A Go `string` is the list of its runes (`GoString`); the text is taken to be
  valid UTF-8, so that the byte tests of the source against ASCII bytes
  (`b[i] == '#'`, the single-byte patterns of `strings.Replace` and of
  `strings.NewReplacer`) coincide with the same tests on runes.
* The embedded `io.Reader` of `toc` is represented by the sequence of lines
  that `bufio.Scanner` yields from it (`s.Scan()` / `s.Text()`): the text
  between line feeds, up to the point where the scanner stops. `parse` does
  not look at `s.Err()`.
* A run of `parse` either panics (the unchecked `p[1]`) or returns; this is
  the `Except Panic` layer. The levels are lengths of lines, far below the
  range of `int`, so they are natural numbers.
* `unicode.ToLower` is table driven outside ASCII; the non-ASCII part of the
  table is the parameter `caseTable` of `canonicalAnchor` and of what calls it.
-/

namespace Gtoc

/-- A Go string, as the list of its runes. -/
abbrev GoString := List Char

/-- The run-time failure of an index expression out of range. -/
inductive Panic where
  | indexOutOfRange
  deriving DecidableEq, Repr

/-! ## Library functions used by the source -/

/-- The call `strings.Replace(s, old, new, -1)` for a pattern `old` of one rune:
every occurrence of `old` is replaced by `new`. -/
def stringsReplace (s : GoString) (old : Char) (new : GoString) : GoString :=
  s.flatMap (fun c => if c = old then new else [c])

/-- The call `strings.HasPrefix(s, prefix)`. -/
def stringsHasPrefix (s pre : GoString) : Bool :=
  pre.isPrefixOf s

/-- The call `strings.Repeat(s, count)` for a count that is not negative. -/
def stringsRepeat (s : GoString) (count : Nat) : GoString :=
  (List.replicate count s).flatten

/-- The function `unicode.IsSpace`: the runes with the Unicode property White_Space. -/
def unicodeIsSpace (r : Char) : Bool :=
  let n := r.toNat
  (9 ≤ n ∧ n ≤ 13) ∨ n = 32 ∨ n = 0x85 ∨ n = 0xA0 ∨ n = 0x1680 ∨
    (0x2000 ≤ n ∧ n ≤ 0x200A) ∨ n = 0x2028 ∨ n = 0x2029 ∨ n = 0x202F ∨
    n = 0x205F ∨ n = 0x3000

/-- The function `strings.TrimSpace`: leading and trailing white space removed. -/
def stringsTrimSpace (s : GoString) : GoString :=
  (s.dropWhile unicodeIsSpace).rdropWhile unicodeIsSpace

/-- The function `unicode.ToLower`: the explicit ASCII branch, and the case
tables (`caseTable`) for every rune above `unicode.MaxASCII`. -/
def unicodeToLower (caseTable : Char → Char) (r : Char) : Char :=
  if r.toNat ≤ 127 then
    if 65 ≤ r.toNat ∧ r.toNat ≤ 90 then Char.ofNat (r.toNat + 32) else r
  else caseTable r

/-- The function `strings.ToLower`: every rune mapped by `unicode.ToLower`. -/
def stringsToLower (caseTable : Char → Char) (s : GoString) : GoString :=
  s.map (unicodeToLower caseTable)

/-- The call `strings.SplitN(s, " ", 2)`: the text before the first space and the
text after it, or `s` alone when it has no space. -/
def stringsSplitN2 (s : GoString) : List GoString :=
  match s.span (fun c => c != ' ') with
  | (_, []) => [s]
  | (before, _ :: after) => [before, after]

/-! ## The source -/

def defaultH1Heading : GoString := "Table Of Content".toList

def defaultFilename : GoString := "./README.md".toList

def removeDashes (s : GoString) : GoString :=
  stringsReplace s '\x60' []

/-- The replacement of one byte by `htmlEscaper`. -/
def htmlEscaperByte (c : Char) : GoString :=
  if c = '&' then "&amp;".toList
  else if c = '<' then "&lt;".toList
  else if c = '>' then "&gt;".toList
  else if c = '"' then "&#34;".toList
  else [c]

/-- The method `htmlEscaper.Replace`. A `strings.Replacer` replaces in the order
of the argument, without overlapping matches; all four patterns are single
bytes, so every byte is mapped on its own, in one pass. -/
def htmlEscaper (s : GoString) : GoString :=
  s.flatMap htmlEscaperByte

def canonicalHeading (s : GoString) : GoString :=
  removeDashes (htmlEscaper s)

/-- The lazy body `[^\(]+?` of `group` followed by `\)`, after the first rune of
the body has been taken: the runes up to the first `)`, provided no `(` comes
before it, and the text after that `)`. -/
def groupBody : GoString → Option (GoString × GoString)
  | [] => none
  | c :: cs =>
    if c = '(' then none
    else if c = ')' then some ([], cs)
    else (groupBody cs).map (fun p => (c :: p.1, p.2))

/-- A match of `group` that starts at a `(` already read: the submatch `$1`
and the text after the match. The body has at least one rune, any rune but `(`. -/
def groupMatch : GoString → Option (GoString × GoString)
  | [] => none
  | c :: cs =>
    if c = '(' then none
    else (groupBody cs).map (fun p => (c :: p.1, p.2))

/-- The scan of `group.ReplaceAllString(s, "$1")`, with `skip` runes of an
accepted match still to pass over: matches are taken leftmost first and do
not overlap. -/
def groupReplaceFrom : Nat → GoString → GoString
  | _, [] => []
  | skip + 1, _ :: cs => groupReplaceFrom skip cs
  | 0, c :: cs =>
    if c = '(' then
      match groupMatch cs with
      | some (sub, _) => sub ++ groupReplaceFrom (sub.length + 1) cs
      | none => c :: groupReplaceFrom 0 cs
    else c :: groupReplaceFrom 0 cs

/-- The call `group.ReplaceAllString(s, "$1")`. -/
def groupReplaceAll (s : GoString) : GoString :=
  groupReplaceFrom 0 s

/-- The runes of the class of `specialChars`. -/
def specialCharsClass : GoString := "[]()':.?><&\"".toList

/-- The call `specialChars.ReplaceAllString(s, "")`. -/
def specialCharsRemoveAll (s : GoString) : GoString :=
  s.filter (fun c => !(specialCharsClass.contains c))

def canonicalAnchor (caseTable : Char → Char) (s : GoString) : GoString :=
  let s := groupReplaceAll s
  let s := stringsToLower caseTable s
  let s := stringsTrimSpace s
  let s := specialCharsRemoveAll s
  let s := removeDashes s
  stringsReplace s ' ' ['-']

def isBlockQuote (s : GoString) : Bool :=
  stringsHasPrefix s "```".toList

/-- The struct `toc`; `Reader` holds the lines the scanner reads from it. -/
structure toc where
  Reader : List GoString
  buf : GoString
  tocHeading : Bool
  indentString : GoString

def toc.reset (t : toc) : toc :=
  { t with buf := [] }

/-- The loop of `hasPrefixHeader` over the bytes after the first. -/
def hasPrefixHeaderLoop (level : Nat) : GoString → Nat
  | [] => level
  | b :: bs => if b = '#' then hasPrefixHeaderLoop (level + 1) bs else level

def toc.hasPrefixHeader (t : toc) (s : GoString) : Nat × Bool :=
  match s with
  | [] => (0, false)
  | b0 :: bs =>
    if b0 ≠ '#' then (0, false)
    else (hasPrefixHeaderLoop (if t.tocHeading then 1 else 0) bs, true)

def toc.writeHeading (caseTable : Char → Char) (t : toc) (n : Nat) (h : GoString) : toc :=
  let sp := stringsRepeat t.indentString (n * 3)
  let s := sp ++ "* [".toList ++ canonicalHeading h ++ "](#".toList ++
    canonicalAnchor caseTable h ++ ")\n".toList
  { t with buf := t.buf ++ s }

/-- One iteration of the loop of `parse` on the line just scanned. -/
def parseLine (caseTable : Char → Char) (t : toc) (skip : Bool) (line : GoString) :
    Except Panic (toc × Bool) :=
  if isBlockQuote line then .ok (t, !skip)
  else if skip then .ok (t, skip)
  else
    match t.hasPrefixHeader line with
    | (n, true) =>
      match (stringsSplitN2 line)[1]? with
      | some h => .ok (t.writeHeading caseTable n h, skip)
      | none => .error Panic.indexOutOfRange
    | (_, false) => .ok (t, skip)

/-- The loop `for s.Scan()` of `parse` over the lines still to read. -/
def parseLoop (caseTable : Char → Char) (t : toc) (skip : Bool) :
    List GoString → Except Panic (toc × Bool)
  | [] => .ok (t, skip)
  | line :: rest =>
    match parseLine caseTable t skip line with
    | .ok (t1, skip1) => parseLoop caseTable t1 skip1 rest
    | .error p => .error p

def errNoHeading : GoString :=
  "toc: failed to detect heading line from given markdown".toList

/-- The method `parse`: the builder after the run and the error returned. The
scanner has read `Reader` to its end when the loop is left. -/
def toc.parse (caseTable : Char → Char) (t : toc) : Except Panic (toc × Option GoString) :=
  let t := t.reset
  let t := if t.tocHeading then t.writeHeading caseTable 0 "Table Of Content".toList else t
  match parseLoop caseTable t false t.Reader with
  | .error p => .error p
  | .ok (t1, _) =>
    let t2 := { t1 with Reader := [] }
    if t2.buf.length = 0 then .ok (t2, some errNoHeading) else .ok (t2, none)

def toc.String (t : toc) : GoString :=
  t.buf

/-- The path `main` opens, as a function of the positional arguments
`flag.Args()`. -/
def mainPath (args : List GoString) : GoString :=
  if h : args.length > 1 then args[0] else defaultFilename

/-! ## Notions of the specification -/

/-- A fence marker: a line that starts with three backticks. -/
def fenceMarker (l : GoString) : Prop :=
  l.take 3 = "```".toList

instance : DecidablePred fenceMarker :=
  fun l => inferInstanceAs (Decidable (l.take 3 = "```".toList))

/-- A line that begins with `#`. -/
def beginsWithHash (l : GoString) : Prop :=
  l.head? = some '#'

instance : DecidablePred beginsWithHash :=
  fun l => inferInstanceAs (Decidable (l.head? = some '#'))

/-- The lines that lie outside fenced regions, `seen` fence markers having been
read before them: a line is inside a fenced region when the last marker before
it is odd-numbered. Markers themselves are not listed. -/
def outsideFences (seen : Nat) : List GoString → List GoString
  | [] => []
  | l :: ls =>
    if fenceMarker l then outsideFences (seen + 1) ls
    else if seen % 2 = 1 then outsideFences seen ls
    else l :: outsideFences seen ls

/-- The heading lines of a document after `seen` markers: the lines outside
fenced regions that begin with `#`, in document order. -/
def headingLinesFrom (seen : Nat) (doc : List GoString) : List GoString :=
  (outsideFences seen doc).filter (fun l => decide (beginsWithHash l))

/-- The heading lines of a whole document, no marker having been read. -/
def headingLines (doc : List GoString) : List GoString :=
  headingLinesFrom 0 doc

/-- The number of fence markers of a document. -/
def fenceMarkerCount (doc : List GoString) : Nat :=
  doc.countP (fun l => decide (fenceMarker l))

/-- The document without the lines of its fenced regions: a line that is not a
marker is deleted when the last marker before it is odd-numbered. -/
def deleteFenced (seen : Nat) : List GoString → List GoString
  | [] => []
  | l :: ls =>
    if fenceMarker l then l :: deleteFenced (seen + 1) ls
    else if seen % 2 = 1 then deleteFenced seen ls
    else l :: deleteFenced seen ls

/-- The number of consecutive `#` at the start of a line. -/
def leadingHashes (l : GoString) : Nat :=
  (l.takeWhile (fun c => c == '#')).length

/-- The part of a line after its first space. -/
def afterFirstSpace (l : GoString) : GoString :=
  (l.dropWhile (fun c => c != ' ')).drop 1

/-- One rendered entry of the table of contents. -/
def tocEntry (caseTable : Char → Char) (indentUnit : GoString) (level : Nat)
    (text : GoString) : GoString :=
  (List.replicate (3 * level) indentUnit).flatten ++ "* [".toList ++ canonicalHeading text ++
    "](#".toList ++ canonicalAnchor caseTable text ++ ")\n".toList

/-- The entry of a heading line under the configuration of `t`. -/
def lineEntry (caseTable : Char → Char) (t : toc) (l : GoString) : GoString :=
  tocEntry caseTable t.indentString (t.hasPrefixHeader l).1 (afterFirstSpace l)

/-- The synthetic first entry. -/
def syntheticEntry : GoString :=
  "* [Table Of Content](#table-of-content)\n".toList

/-- The text of the table of contents of the document of `t`. -/
def tocText (caseTable : Char → Char) (t : toc) : GoString :=
  (if t.tocHeading then syntheticEntry else []) ++
    (headingLines t.Reader).flatMap (lineEntry caseTable t)

/-- The text that stands for one rune of a heading in its label: the four HTML
escapes, nothing for a backtick, and every other rune itself. -/
def labelRune (c : Char) : GoString :=
  if c = '&' then "&amp;".toList
  else if c = '<' then "&lt;".toList
  else if c = '>' then "&gt;".toList
  else if c = '"' then "&#34;".toList
  else if c = '\x60' then []
  else [c]

/-- An ASCII uppercase letter. -/
def asciiUpper (c : Char) : Prop :=
  65 ≤ c.toNat ∧ c.toNat ≤ 90

instance : DecidablePred asciiUpper :=
  fun c => inferInstanceAs (Decidable (65 ≤ c.toNat ∧ c.toNat ≤ 90))

/-! ## Lemmas on the library functions -/

theorem isBlockQuote_iff (l : GoString) : isBlockQuote l = true ↔ fenceMarker l := by
  unfold isBlockQuote stringsHasPrefix fenceMarker
  rw [List.isPrefixOf_iff_prefix, List.prefix_iff_eq_take]
  have h3 : "```".toList.length = 3 := rfl
  rw [h3]
  exact eq_comm

theorem fenceMarker_iff (l : GoString) : fenceMarker l ↔ ∃ rest, l = "```".toList ++ rest := by
  unfold fenceMarker
  constructor
  · intro h
    exact ⟨l.drop 3, by rw [← h, List.take_append_drop]⟩
  · rintro ⟨rest, rfl⟩
    rfl

theorem dropWhile_ne_space_eq_nil (l : GoString) :
    l.dropWhile (fun c => c != ' ') = [] ↔ ' ' ∉ l := by
  rw [List.dropWhile_eq_nil_iff]
  constructor
  · intro h hmem
    simpa using h ' ' hmem
  · intro h a ha
    have : a ≠ ' ' := fun e => h (e ▸ ha)
    simpa using this

theorem stringsSplitN2_second (l : GoString) :
    (stringsSplitN2 l)[1]? = if ' ' ∈ l then some (afterFirstSpace l) else none := by
  unfold stringsSplitN2 afterFirstSpace
  rw [List.span_eq_take_drop]
  cases hd : l.dropWhile (fun c => c != ' ') with
  | nil =>
    have := (dropWhile_ne_space_eq_nil l).1 hd
    simp [this]
  | cons x xs =>
    have hne : ' ' ∈ l := by
      by_contra hcon
      rw [(dropWhile_ne_space_eq_nil l).2 hcon] at hd
      cases hd
    simp [hne]

/-! ## Lemmas on the scan -/

theorem hasPrefixHeader_snd (t : toc) (l : GoString) :
    (t.hasPrefixHeader l).2 = decide (beginsWithHash l) := by
  cases l with
  | nil => rfl
  | cons c cs =>
    by_cases hc : c = '#'
    · subst hc; rfl
    · simp [toc.hasPrefixHeader, beginsWithHash, hc]

theorem writeHeading_eq (caseTable : Char → Char) (t : toc) (n : Nat) (h : GoString) :
    t.writeHeading caseTable n h =
      { t with buf := t.buf ++ tocEntry caseTable t.indentString n h } := by
  simp [toc.writeHeading, tocEntry, stringsRepeat, Nat.mul_comm]

theorem parseLine_eq (caseTable : Char → Char) (t : toc) (skip : Bool) (l : GoString) :
    parseLine caseTable t skip l =
      if fenceMarker l then .ok (t, !skip)
      else if skip = true then .ok (t, skip)
      else if beginsWithHash l then
        if ' ' ∈ l then .ok ({ t with buf := t.buf ++ lineEntry caseTable t l }, skip)
        else .error Panic.indexOutOfRange
      else .ok (t, skip) := by
  unfold parseLine
  by_cases hm : fenceMarker l
  · simp [hm, (isBlockQuote_iff l).2 hm]
  · have hb : isBlockQuote l = false := by
      cases hq : isBlockQuote l with
      | false => rfl
      | true => exact absurd ((isBlockQuote_iff l).1 hq) hm
    by_cases hs : skip = true
    · simp [hm, hb, hs]
    · have h2 := hasPrefixHeader_snd t l
      rcases hp : t.hasPrefixHeader l with ⟨n, ok⟩
      rw [hp] at h2
      simp only at h2
      by_cases hh : beginsWithHash l
      · have hok : ok = true := by simp [h2, hh]
        subst hok
        by_cases hsp : ' ' ∈ l
        · simp [hm, hb, hs, hh, hsp, stringsSplitN2_second, writeHeading_eq, lineEntry, hp]
        · simp [hm, hb, hs, hh, hsp, stringsSplitN2_second]
      · have hok : ok = false := by simp [h2, hh]
        subst hok
        simp [hm, hb, hs, hh]

theorem lineEntry_buf (caseTable : Char → Char) (t : toc) (b : GoString) :
    lineEntry caseTable { t with buf := b } = lineEntry caseTable t := rfl

theorem parity_succ (seen : Nat) :
    decide ((seen + 1) % 2 = 1) = !decide (seen % 2 = 1) := by
  rcases Nat.mod_two_eq_zero_or_one seen with h | h <;> simp [Nat.add_mod, h]

/-- The loop of `parse`, in closed form: it panics exactly when some heading
line still to read has no space, and otherwise appends the entries of the
heading lines and leaves the fence state at the parity of the markers read. -/
theorem parseLoop_eq (caseTable : Char → Char) (lines : List GoString) :
    ∀ (t : toc) (skip : Bool) (seen : Nat), skip = decide (seen % 2 = 1) →
      parseLoop caseTable t skip lines =
        if ∀ l ∈ headingLinesFrom seen lines, ' ' ∈ l then
          .ok ({ t with buf := t.buf ++
                  (headingLinesFrom seen lines).flatMap (lineEntry caseTable t) },
               decide ((seen + fenceMarkerCount lines) % 2 = 1))
        else .error Panic.indexOutOfRange := by
  induction lines with
  | nil =>
    intro t skip seen hs
    simp [parseLoop, headingLinesFrom, outsideFences, fenceMarkerCount, hs]
  | cons l ls ih =>
    intro t skip seen hs
    rw [parseLoop, parseLine_eq]
    by_cases hm : fenceMarker l
    · have hs1 : (!skip) = decide ((seen + 1) % 2 = 1) := by rw [parity_succ, hs]
      simp only [hm, if_true]
      rw [ih t (!skip) (seen + 1) hs1]
      simp [headingLinesFrom, outsideFences, fenceMarkerCount, hm, List.countP_cons,
        Nat.add_assoc, Nat.add_comm 1]
    · have hcount : fenceMarkerCount (l :: ls) = fenceMarkerCount ls := by
        simp [fenceMarkerCount, List.countP_cons, hm]
      by_cases hk : skip = true
      · have hodd : seen % 2 = 1 := by simpa [hk] using hs.symm
        simp only [hm, hk, if_true, if_false]
        rw [ih t true seen (by simp [hodd]), hcount]
        simp [headingLinesFrom, outsideFences, hm, hodd]
      · have hev : ¬ seen % 2 = 1 := by
          intro h; apply hk; rw [hs]; simp [h]
        have hkf : skip = false := by simpa using hk
        subst hkf
        by_cases hh : beginsWithHash l
        · by_cases hsp : ' ' ∈ l
          · simp only [hm, hh, hsp, if_true, if_false, Bool.false_eq_true]
            rw [ih _ false seen hs, hcount]
            have hHL : headingLinesFrom seen (l :: ls) = l :: headingLinesFrom seen ls := by
              simp [headingLinesFrom, outsideFences, hm, hev, hh]
            simp [hHL, hsp, lineEntry_buf, List.append_assoc]
          · simp only [hm, hh, hsp, if_true, if_false, Bool.false_eq_true]
            have hHL : headingLinesFrom seen (l :: ls) = l :: headingLinesFrom seen ls := by
              simp [headingLinesFrom, outsideFences, hm, hev, hh]
            simp [hHL, hsp]
        · simp only [hm, hh, if_true, if_false, Bool.false_eq_true]
          rw [ih t false seen hs, hcount]
          have hHL : headingLinesFrom seen (l :: ls) = headingLinesFrom seen ls := by
            simp [headingLinesFrom, outsideFences, hm, hev, hh]
          simp [hHL]

theorem tocEntry_synthetic (caseTable : Char → Char) (indentUnit : GoString) :
    tocEntry caseTable indentUnit 0 "Table Of Content".toList = syntheticEntry := rfl

/-- The method `parse`, in closed form. -/
theorem parse_eq (caseTable : Char → Char) (t : toc) :
    t.parse caseTable =
      if ∀ l ∈ headingLines t.Reader, ' ' ∈ l then
        .ok ({ t with Reader := [], buf := tocText caseTable t },
             if tocText caseTable t = [] then some errNoHeading else none)
      else .error Panic.indexOutOfRange := by
  obtain ⟨doc, b, th, ind⟩ := t
  unfold toc.parse
  simp only [toc.reset, writeHeading_eq, tocEntry_synthetic, headingLines, tocText]
  have hle : ∀ b1 : GoString, lineEntry caseTable ⟨doc, b1, th, ind⟩ =
      lineEntry caseTable ⟨doc, b, th, ind⟩ := fun _ => rfl
  by_cases hsp : ∀ l ∈ headingLinesFrom 0 doc, ' ' ∈ l
  · cases th
    · simp only [Bool.false_eq_true, if_false]
      rw [parseLoop_eq caseTable doc _ false 0 (by decide), if_pos hsp, if_pos hsp]
      simp only [hle [], List.nil_append, List.length_eq_zero]
      split <;> rfl
    · simp only [if_true]
      rw [parseLoop_eq caseTable doc _ false 0 (by decide), if_pos hsp, if_pos hsp]
      simp only [List.nil_append, List.length_eq_zero]
      rw [hle syntheticEntry]
      split <;> rfl
  · cases th
    · simp only [Bool.false_eq_true, if_false]
      rw [parseLoop_eq caseTable doc _ false 0 (by decide), if_neg hsp, if_neg hsp]
    · simp only [if_true]
      rw [parseLoop_eq caseTable doc _ false 0 (by decide), if_neg hsp, if_neg hsp]

theorem outsideFences_deleteFenced (doc : List GoString) :
    ∀ seen : Nat, outsideFences seen (deleteFenced seen doc) = outsideFences seen doc := by
  induction doc with
  | nil => intro seen; rfl
  | cons l ls ih =>
    intro seen
    by_cases hm : fenceMarker l
    · simp [deleteFenced, outsideFences, hm, ih]
    · by_cases hodd : seen % 2 = 1
      · simp [deleteFenced, outsideFences, hm, hodd, ih]
      · simp [deleteFenced, outsideFences, hm, hodd, ih]

theorem headingLines_deleteFenced (doc : List GoString) :
    headingLines (deleteFenced 0 doc) = headingLines doc := by
  simp [headingLines, headingLinesFrom, outsideFences_deleteFenced]

/-- A document without heading lines: `parse` reports the error only when no
synthetic entry has been written. -/
theorem parse_of_no_headingLines (caseTable : Char → Char) (t : toc)
    (h : headingLines t.Reader = []) :
    t.parse caseTable =
      if t.tocHeading then .ok ({ t with Reader := [], buf := syntheticEntry }, none)
      else .ok ({ t with Reader := [], buf := [] }, some errNoHeading) := by
  rw [parse_eq]
  cases hth : t.tocHeading <;> simp [tocText, h, hth, syntheticEntry]

/-- A document with heading lines that all hold a space: `parse` returns without
error, and its text is made of one entry for every heading line, after the
synthetic entry if there is one; every entry ends with a newline. -/
theorem parse_of_headingLines (caseTable : Char → Char) (t : toc)
    (hne : headingLines t.Reader ≠ []) (hsp : ∀ l ∈ headingLines t.Reader, ' ' ∈ l) :
    ∃ entries : List GoString,
      t.parse caseTable = .ok ({ t with Reader := [], buf := entries.flatten }, none) ∧
      entries.flatten ≠ [] ∧
      entries.length = (headingLines t.Reader).length + (if t.tocHeading then 1 else 0) ∧
      ∀ e ∈ entries, e.getLast? = some '\n' := by
  have hentry : ∀ l, (lineEntry caseTable t l).getLast? = some '\n' := by
    intro l
    unfold lineEntry tocEntry
    rw [List.getLast?_append]
    rfl
  have hsyn : syntheticEntry.getLast? = some '\n' := by decide
  have hnonempty : tocText caseTable t ≠ [] := by
    obtain ⟨l, ls, hl⟩ := List.exists_cons_of_ne_nil hne
    have hl1 : lineEntry caseTable t l ≠ [] := by
      intro h0
      have := hentry l
      rw [h0] at this
      cases this
    intro h0
    unfold tocText at h0
    rw [hl, List.flatMap_cons] at h0
    simp only [List.append_eq_nil] at h0
    exact hl1 h0.2.1
  have htext : ((if t.tocHeading then [syntheticEntry] else []) ++
        (headingLines t.Reader).map (lineEntry caseTable t)).flatten = tocText caseTable t := by
    cases hth : t.tocHeading <;> simp [tocText, hth, List.flatMap_def]
  refine ⟨(if t.tocHeading then [syntheticEntry] else []) ++
    (headingLines t.Reader).map (lineEntry caseTable t), ?_, ?_, ?_, ?_⟩
  · rw [parse_eq, if_pos hsp, htext, if_neg (hnonempty)]
  · rw [htext]; exact hnonempty
  · cases hth : t.tocHeading <;> simp [Nat.add_comm]
  · intro e he
    rw [List.mem_append] at he
    rcases he with he | he
    · cases hth : t.tocHeading
      · simp [hth] at he
      · simp [hth] at he; rw [he]; exact hsyn
    · rw [List.mem_map] at he
      obtain ⟨l, _, rfl⟩ := he
      exact hentry l

theorem hasPrefixHeaderLoop_eq (bs : GoString) :
    ∀ level : Nat, hasPrefixHeaderLoop level bs = level + leadingHashes bs := by
  induction bs with
  | nil => intro level; rfl
  | cons b bs ih =>
    intro level
    by_cases hb : b = '#'
    · subst hb
      simp [hasPrefixHeaderLoop, leadingHashes, List.takeWhile_cons, ih] at ih ⊢
      omega
    · simp [hasPrefixHeaderLoop, leadingHashes, List.takeWhile_cons, hb]

theorem removeDashes_htmlEscaperByte (c : Char) :
    removeDashes (htmlEscaperByte c) = labelRune c := by
  unfold htmlEscaperByte labelRune
  by_cases h1 : c = '&'
  · subst h1; decide
  by_cases h2 : c = '<'
  · subst h2; decide
  by_cases h3 : c = '>'
  · subst h3; decide
  by_cases h4 : c = '"'
  · subst h4; decide
  by_cases h5 : c = '\x60'
  · subst h5; decide
  simp [h1, h2, h3, h4, h5, removeDashes, stringsReplace]

theorem canonicalHeading_eq (s : GoString) : canonicalHeading s = s.flatMap labelRune := by
  unfold canonicalHeading htmlEscaper
  have h : ∀ x : GoString, removeDashes x = x.flatMap (fun c => removeDashes [c]) := by
    intro x
    simp [removeDashes, stringsReplace]
  rw [h, List.flatMap_assoc]
  apply List.flatMap_congr
  intro c _
  rw [← h, removeDashes_htmlEscaperByte]

theorem labelRune_mem (x c : Char) (h : c ∈ labelRune x) :
    c ≠ '<' ∧ c ≠ '>' ∧ c ≠ '"' ∧ c ≠ '\x60' := by
  unfold labelRune at h
  split at h
  · revert c; decide
  split at h
  · revert c; decide
  split at h
  · revert c; decide
  split at h
  · revert c; decide
  split at h
  · cases h
  · rw [List.mem_singleton] at h
    subst h
    rename_i h1 h2 h3 h4 h5
    exact ⟨h2, h3, h4, h5⟩

/-! ## Lemmas on `canonicalAnchor` -/

theorem groupBody_rest (cs : GoString) :
    ∀ sub rest : GoString, groupBody cs = some (sub, rest) → rest = cs.drop (sub.length + 1) := by
  induction cs with
  | nil => intro sub rest h; cases h
  | cons c cs ih =>
    intro sub rest h
    unfold groupBody at h
    split at h
    · cases h
    · split at h
      · cases h; rfl
      · cases hb : groupBody cs with
        | none => rw [hb] at h; cases h
        | some p =>
          rw [hb] at h
          cases h
          exact ih p.1 p.2 hb

theorem groupMatch_rest (cs sub rest : GoString) (h : groupMatch cs = some (sub, rest)) :
    rest = cs.drop (sub.length + 1) := by
  cases cs with
  | nil => cases h
  | cons c cs =>
    simp only [groupMatch] at h
    split at h
    · cases h
    · cases hb : groupBody cs with
      | none => rw [hb] at h; cases h
      | some p =>
        rw [hb] at h
        cases h
        exact groupBody_rest cs p.1 p.2 hb

theorem groupReplaceFrom_drop (skip : Nat) :
    ∀ cs : GoString, groupReplaceFrom skip cs = groupReplaceFrom 0 (cs.drop skip) := by
  induction skip with
  | zero => intro cs; rfl
  | succ n ih =>
    intro cs
    cases cs with
    | nil => rfl
    | cons c cs => exact ih cs

/-- The scan of `group.ReplaceAllString` at a `(`: a match is replaced by its
submatch and the scan goes on after the match; without a match the `(` stays. -/
theorem groupReplaceFrom_open (cs : GoString) :
    groupReplaceFrom 0 ('(' :: cs) =
      match groupMatch cs with
      | some (sub, rest) => sub ++ groupReplaceFrom 0 rest
      | none => '(' :: groupReplaceFrom 0 cs := by
  cases h : groupMatch cs with
  | none => simp [groupReplaceFrom, h]
  | some p =>
    obtain ⟨sub, rest⟩ := p
    simp only [groupReplaceFrom, h, if_true]
    rw [groupReplaceFrom_drop, ← groupMatch_rest cs sub rest h]

theorem groupReplaceFrom_of_no_open (s : GoString) (h : '(' ∉ s) :
    groupReplaceFrom 0 s = s := by
  induction s with
  | nil => rfl
  | cons c cs ih =>
    have hc : c ≠ '(' := fun e => h (e ▸ List.mem_cons_self _ _)
    have hcs : '(' ∉ cs := fun hm => h (List.mem_cons_of_mem _ hm)
    simp [groupReplaceFrom, hc, ih hcs]

theorem stringsReplace_of_not_mem (s : GoString) (old : Char) (new : GoString)
    (h : old ∉ s) : stringsReplace s old new = s := by
  induction s with
  | nil => rfl
  | cons c cs ih =>
    have hc : c ≠ old := fun e => h (e ▸ List.mem_cons_self _ _)
    have hcs : old ∉ cs := fun hm => h (List.mem_cons_of_mem _ hm)
    have := ih hcs
    simp [stringsReplace, hc] at this ⊢
    exact this

theorem stringsTrimSpace_of_no_space (s : GoString)
    (h : ∀ c ∈ s, unicodeIsSpace c = false) : stringsTrimSpace s = s := by
  unfold stringsTrimSpace
  have h1 : s.dropWhile unicodeIsSpace = s := by
    cases s with
    | nil => rfl
    | cons c cs => simp [List.dropWhile_cons, h c (List.mem_cons_self _ _)]
  rw [h1, List.rdropWhile_eq_self_iff]
  intro hl
  simp [h _ (List.getLast_mem hl)]

theorem stringsTrimSpace_subset (s : GoString) : stringsTrimSpace s ⊆ s := by
  unfold stringsTrimSpace
  intro c hc
  exact (List.dropWhile_suffix _).subset ((List.rdropWhile_prefix _ _).subset hc)

/-- A text on which every step of `canonicalAnchor` is the identity. -/
theorem canonicalAnchor_of_fixed (caseTable : Char → Char) (r : GoString)
    (hspecial : ∀ c ∈ r, specialCharsClass.contains c = false)
    (hlower : ∀ c ∈ r, unicodeToLower caseTable c = c)
    (hspace : ∀ c ∈ r, unicodeIsSpace c = false)
    (hdash : '\x60' ∉ r) :
    canonicalAnchor caseTable r = r := by
  have hopen : '(' ∉ r := by
    intro hm
    have := hspecial _ hm
    revert this
    decide
  have hsp : ' ' ∉ r := by
    intro hm
    have := hspace _ hm
    revert this
    decide
  have h1 : groupReplaceAll r = r := groupReplaceFrom_of_no_open r hopen
  have h2 : stringsToLower caseTable r = r := by
    unfold stringsToLower
    conv_rhs => rw [← List.map_id r]
    exact List.map_congr_left hlower
  have h3 : stringsTrimSpace r = r := stringsTrimSpace_of_no_space r hspace
  have h4 : specialCharsRemoveAll r = r := by
    unfold specialCharsRemoveAll
    rw [List.filter_eq_self]
    intro a ha
    rw [hspecial a ha]
    rfl
  have h5 : removeDashes r = r := stringsReplace_of_not_mem r _ _ hdash
  unfold canonicalAnchor
  simp only [h1, h2, h3, h4, h5]
  exact stringsReplace_of_not_mem r _ _ hsp

theorem mem_stringsReplace (s : GoString) (old : Char) (new : GoString) (c : Char)
    (h : c ∈ stringsReplace s old new) : c ∈ new ∨ (c ∈ s ∧ c ≠ old) := by
  unfold stringsReplace at h
  rw [List.mem_flatMap] at h
  obtain ⟨x, hx, hc⟩ := h
  split at hc
  · exact Or.inl hc
  · rename_i hne
    rw [List.mem_singleton] at hc
    subst hc
    exact Or.inr ⟨hx, hne⟩

theorem canonicalAnchor_mem (caseTable : Char → Char) (s : GoString) (hopen : '(' ∉ s)
    (c : Char) (hc : c ∈ canonicalAnchor caseTable s) :
    c = '-' ∨ (c ≠ ' ' ∧ c ≠ '\x60' ∧ specialCharsClass.contains c = false ∧
      ∃ x ∈ s, c = unicodeToLower caseTable x) := by
  unfold canonicalAnchor at hc
  simp only [groupReplaceAll, groupReplaceFrom_of_no_open s hopen] at hc
  rcases mem_stringsReplace _ _ _ _ hc with h | ⟨h, hne⟩
  · left; simpa using h
  · right
    unfold removeDashes at h
    rcases mem_stringsReplace _ _ _ _ h with h | ⟨h, hne2⟩
    · cases h
    · unfold specialCharsRemoveAll at h
      rw [List.mem_filter] at h
      obtain ⟨hm, hf⟩ := h
      have hm2 := stringsTrimSpace_subset _ hm
      unfold stringsToLower at hm2
      rw [List.mem_map] at hm2
      obtain ⟨x, hx, rfl⟩ := hm2
      refine ⟨hne, hne2, by simpa using hf, x, hx, rfl⟩


theorem unicodeToLower_id_idem (r : Char) :
    unicodeToLower id (unicodeToLower id r) = unicodeToLower id r := by
  by_cases hu : 65 ≤ r.toNat ∧ r.toNat ≤ 90
  · obtain ⟨h1, h2⟩ := hu
    rw [← Char.ofNat_toNat r]
    generalize r.toNat = n at h1 h2
    interval_cases n <;> decide
  · have h0 : unicodeToLower id r = r := by
      unfold unicodeToLower
      simp [hu]
    rw [h0, h0]

theorem unicodeToLower_id_space (r : Char)
    (h : unicodeIsSpace (unicodeToLower id r) = true) : unicodeIsSpace r = true := by
  by_cases hu : 65 ≤ r.toNat ∧ r.toNat ≤ 90
  · obtain ⟨h1, h2⟩ := hu
    rw [← Char.ofNat_toNat r] at h ⊢
    generalize r.toNat = n at h1 h2 h
    interval_cases n <;> revert h <;> decide
  · have h0 : unicodeToLower id r = r := by
      unfold unicodeToLower
      simp [hu]
    rw [h0] at h
    exact h

theorem canonicalAnchor_mem_all (caseTable : Char → Char) (s : GoString)
    (c : Char) (hc : c ∈ canonicalAnchor caseTable s) :
    c = '-' ∨ (c ≠ ' ' ∧ c ≠ '\x60' ∧ specialCharsClass.contains c = false ∧
      ∃ x ∈ groupReplaceAll s, c = unicodeToLower caseTable x) := by
  unfold canonicalAnchor at hc
  rcases mem_stringsReplace _ _ _ _ hc with h | ⟨h, hne⟩
  · left; simpa using h
  · right
    unfold removeDashes at h
    rcases mem_stringsReplace _ _ _ _ h with h | ⟨h, hne2⟩
    · cases h
    · unfold specialCharsRemoveAll at h
      rw [List.mem_filter] at h
      obtain ⟨hm, hf⟩ := h
      have hm2 := stringsTrimSpace_subset _ hm
      unfold stringsToLower at hm2
      rw [List.mem_map] at hm2
      obtain ⟨x, hx, rfl⟩ := hm2
      refine ⟨hne, hne2, by simpa using hf, x, hx, rfl⟩

theorem unicodeToLower_not_upper (caseTable : Char → Char)
    (htable : ∀ r : Char, 127 < r.toNat → ¬ asciiUpper (caseTable r)) (x : Char) :
    ¬ asciiUpper (unicodeToLower caseTable x) := by
  unfold unicodeToLower
  by_cases ha : x.toNat ≤ 127
  · by_cases hu : 65 ≤ x.toNat ∧ x.toNat ≤ 90
    · simp only [ha, hu, if_true, and_self]
      obtain ⟨h1, h2⟩ := hu
      generalize x.toNat = n at h1 h2
      interval_cases n <;> decide
    · simp only [ha, hu, if_true, if_false]
      exact hu
  · simp only [ha, if_false]
    exact htable x (by omega)

theorem htmlEscaper_removeDashes (s : GoString) :
    htmlEscaper (removeDashes s) = s.flatMap labelRune := by
  unfold htmlEscaper removeDashes stringsReplace
  rw [List.flatMap_assoc]
  apply List.flatMap_congr
  intro c _
  unfold labelRune
  by_cases h1 : c = '&'
  · subst h1; decide
  by_cases h2 : c = '<'
  · subst h2; decide
  by_cases h3 : c = '>'
  · subst h3; decide
  by_cases h4 : c = '"'
  · subst h4; decide
  by_cases h5 : c = '\x60'
  · subst h5; decide
  simp [h1, h2, h3, h4, h5, htmlEscaperByte]

theorem outsideFences_parity (doc : List GoString) :
    ∀ seen seen1 : Nat, seen % 2 = seen1 % 2 →
      outsideFences seen doc = outsideFences seen1 doc := by
  induction doc with
  | nil => intro _ _ _; rfl
  | cons l ls ih =>
    intro seen seen1 h
    have hs : (seen + 1) % 2 = (seen1 + 1) % 2 := by omega
    by_cases hm : fenceMarker l
    · simp only [outsideFences, hm, if_true]
      exact ih _ _ hs
    · simp only [outsideFences, hm, if_false, h]
      rw [ih seen seen1 h]

theorem outsideFences_append (d1 d2 : List GoString) :
    ∀ seen : Nat, outsideFences seen (d1 ++ d2) =
      outsideFences seen d1 ++ outsideFences (seen + fenceMarkerCount d1) d2 := by
  induction d1 with
  | nil => intro seen; simp [outsideFences, fenceMarkerCount]
  | cons l ls ih =>
    intro seen
    rw [List.cons_append]
    by_cases hm : fenceMarker l
    · have hc : seen + fenceMarkerCount (l :: ls) = seen + 1 + fenceMarkerCount ls := by
        simp [fenceMarkerCount, List.countP_cons, hm]
        omega
      rw [hc, outsideFences, outsideFences, if_pos hm, if_pos hm]
      exact ih (seen + 1)
    · have hc : fenceMarkerCount (l :: ls) = fenceMarkerCount ls := by
        simp [fenceMarkerCount, List.countP_cons, hm]
      rw [hc, outsideFences, outsideFences, if_neg hm, if_neg hm]
      by_cases hodd : seen % 2 = 1
      · rw [if_pos hodd, if_pos hodd]
        exact ih seen
      · rw [if_neg hodd, if_neg hodd, List.cons_append]
        exact congrArg _ (ih seen)

theorem headingLines_append (d1 d2 : List GoString) (heven : fenceMarkerCount d1 % 2 = 0) :
    headingLines (d1 ++ d2) = headingLines d1 ++ headingLines d2 := by
  unfold headingLines headingLinesFrom
  rw [outsideFences_append, List.filter_append,
    outsideFences_parity d2 (0 + fenceMarkerCount d1) 0 (by omega)]

theorem afterFirstSpace_append (pre text : GoString) (hpre : ' ' ∉ pre) :
    afterFirstSpace (pre ++ ' ' :: text) = text := by
  induction pre with
  | nil => simp [afterFirstSpace]
  | cons c cs ih =>
    have hc : c ≠ ' ' := fun e => hpre (e ▸ List.mem_cons_self _ _)
    have hcs : ' ' ∉ cs := fun hm => hpre (List.mem_cons_of_mem _ hm)
    have := ih hcs
    simp [afterFirstSpace, hc] at this ⊢
    exact this

theorem takeWhile_ne_space (l : GoString) (hsp : ' ' ∈ l) :
    l = l.takeWhile (fun c => c != ' ') ++ ' ' :: afterFirstSpace l ∧
      ' ' ∉ l.takeWhile (fun c => c != ' ') := by
  constructor
  · unfold afterFirstSpace
    cases hd : l.dropWhile (fun c => c != ' ') with
    | nil => exact absurd hsp ((dropWhile_ne_space_eq_nil l).1 hd)
    | cons x xs =>
      have hx : x = ' ' := by
        have := List.head_dropWhile_not (fun c => c != ' ') l (by rw [hd]; simp)
        simp [hd] at this
        exact this
      subst hx
      have := List.takeWhile_append_dropWhile (fun c => c != ' ') l
      rw [hd] at this
      simpa using this.symm
  · intro hm
    have := List.mem_takeWhile_imp hm
    simp at this

theorem id_not_asciiUpper (r : Char) (h : 127 < r.toNat) : ¬ asciiUpper (id r) := by
  intro hu
  unfold asciiUpper at hu
  simp only [id] at hu
  omega

theorem tocText_append (caseTable : Char → Char) (b indent : GoString)
    (d1 d2 : List GoString) (heven : fenceMarkerCount d1 % 2 = 0) :
    tocText caseTable ⟨d1 ++ d2, b, false, indent⟩ =
      tocText caseTable ⟨d1, b, false, indent⟩ ++ tocText caseTable ⟨d2, b, false, indent⟩ := by
  simp only [tocText, Bool.false_eq_true, if_false, List.nil_append,
    headingLines_append d1 d2 heven, List.flatMap_append]
  rfl

/-! ## The claims -/

/-- Claim C1: for every configuration and every document whose lines outside fenced
regions that begin with `#` all contain a space, `parse` returns with exactly this
text in its buffer: the synthetic entry first if `tocHeading` is set, then one entry
for every line outside fenced regions that begins with `#`, in document order. The
entry of a line is the indent string repeated `3 * level` times, then `* [`, the
canonical heading of the text, `](#`, the canonical anchor of the text and `)` with
a newline, where the level is the one `hasPrefixHeader` returns for the line and
the text is the part of the line after its first space. -/
theorem parse_produces_entries (caseTable : Char → Char) (t : toc)
    (hsp : ∀ l ∈ headingLines t.Reader, ' ' ∈ l) :
    ∃ err, t.parse caseTable = .ok
      ({ t with
          Reader := []
          buf :=
            (if t.tocHeading then "* [Table Of Content](#table-of-content)\n".toList else []) ++
            (headingLines t.Reader).flatMap (fun line =>
              (List.replicate (3 * (t.hasPrefixHeader line).1) t.indentString).flatten ++
                "* [".toList ++ canonicalHeading (afterFirstSpace line) ++ "](#".toList ++
                canonicalAnchor caseTable (afterFirstSpace line) ++ ")\n".toList) }, err) := by
  rw [parse_eq, if_pos hsp]
  exact ⟨_, rfl⟩

/-- The instance of C1 at a document with a fenced region, under the synthetic entry
and an indent of two spaces. -/
theorem parse_produces_entries_witness :
    (∀ l ∈ headingLines ["# Title".toList, "text".toList, "```go".toList,
        "# in fence".toList, "```".toList, "## Sub `x` & (y)".toList], ' ' ∈ l) ∧
    ∃ err, toc.parse id ⟨["# Title".toList, "text".toList, "```go".toList,
        "# in fence".toList, "```".toList, "## Sub `x` & (y)".toList], [], true, "  ".toList⟩ =
      .ok (⟨[], ("* [Table Of Content](#table-of-content)\n" ++
                "      * [Title](#title)\n" ++
                "            * [Sub x &amp; (y)](#sub-x--y)\n").toList, true, "  ".toList⟩, err) :=
  ⟨by decide, parse_produces_entries id ⟨["# Title".toList, "text".toList, "```go".toList,
        "# in fence".toList, "```".toList, "## Sub `x` & (y)".toList], [], true, "  ".toList⟩
      (by decide)⟩

/-- Claim C2: a line is a fence marker iff it starts with three backticks, whatever
follows; a marker toggles the fence state and no other line changes it; the result of
`parse` is the same on the document from which every line between an odd-numbered
marker and the next marker (or the end of the input) has been deleted; and the document
of the specification yields the one entry of its heading outside the fence. -/
theorem fenced_lines_produce_no_entry :
    (∀ l : GoString, isBlockQuote l = true ↔ ∃ rest, l = "```".toList ++ rest) ∧
    (∀ (caseTable : Char → Char) (t : toc) (skip : Bool) (l : GoString),
      isBlockQuote l = true → parseLine caseTable t skip l = .ok (t, !skip)) ∧
    (∀ (caseTable : Char → Char) (t : toc) (skip : Bool) (l : GoString) (r : toc × Bool),
      isBlockQuote l = false → parseLine caseTable t skip l = .ok r → r.2 = skip) ∧
    (∀ (caseTable : Char → Char) (t : toc),
      toc.parse caseTable { t with Reader := deleteFenced 0 t.Reader } = t.parse caseTable) ∧
    (∀ (caseTable : Char → Char) (b indent : GoString),
      toc.parse caseTable ⟨["```".toList, "# Not A Heading".toList, "```".toList,
          "# Real Heading".toList], b, false, indent⟩ =
        .ok (⟨[], "* [Real Heading](#real-heading)\n".toList, false, indent⟩, none)) := by
  refine ⟨?_, ?_, ?_, ?_, ?_⟩
  · intro l
    rw [isBlockQuote_iff, fenceMarker_iff]
  · intro caseTable t skip l hl
    rw [parseLine_eq, if_pos ((isBlockQuote_iff l).1 hl)]
  · intro caseTable t skip l r hl hr
    have hm : ¬ fenceMarker l := by
      intro hm
      rw [(isBlockQuote_iff l).2 hm] at hl
      cases hl
    rw [parseLine_eq, if_neg hm] at hr
    split at hr
    · cases hr; rfl
    · split at hr
      · split at hr
        · cases hr; rfl
        · cases hr
      · cases hr; rfl
  · intro caseTable t
    obtain ⟨doc, b, th, ind⟩ := t
    rw [parse_eq, parse_eq]
    simp only [headingLines_deleteFenced, tocText]
    rfl
  · intro caseTable b indent
    rfl

/-- Claim C3, at the input on which the code departs from it: with `tocHeading` set,
the empty document makes `parse` return without error, its buffer holding the
synthetic entry alone. -/
theorem parse_empty_document_tocHeading (caseTable : Char → Char) (b indent : GoString) :
    toc.parse caseTable ⟨[], b, true, indent⟩ =
      .ok (⟨[], "* [Table Of Content](#table-of-content)\n".toList, true, indent⟩, none) := by
  rfl

/-- Claim C4, at the input on which the code departs from it: the document of the one
line `#foo` has a line outside fenced regions that begins with `#`, and `parse`
panics on it. -/
theorem parse_heading_without_space (caseTable : Char → Char) (b indent : GoString)
    (tocHeading : Bool) :
    headingLines ["#foo".toList] = ["#foo".toList] ∧
    toc.parse caseTable ⟨["#foo".toList], b, tocHeading, indent⟩ =
      .error Panic.indexOutOfRange := by
  constructor
  · decide
  · cases tocHeading <;> rfl

/-- Claim C5 fails as stated: with `tocHeading` set, the line `# Title` has one leading
`#`, and the level returned is neither that count plus one nor 2. -/
theorem hasPrefixHeader_level_counterexample :
    (toc.hasPrefixHeader ⟨[], [], true, []⟩ "# Title".toList).1 ≠
        leadingHashes "# Title".toList + 1 ∧
      (toc.hasPrefixHeader ⟨[], [], true, []⟩ "# Title".toList).1 ≠ 2 := by
  decide

/-- Claim C5, amended: for every line that begins with `#`, `hasPrefixHeader` reports a
heading, and its level is the number of consecutive leading `#` of the line minus one,
plus one if `tocHeading` is set. -/
theorem hasPrefixHeader_level (t : toc) (line : GoString) (h : beginsWithHash line) :
    t.hasPrefixHeader line =
      (leadingHashes line - 1 + (if t.tocHeading then 1 else 0), true) := by
  cases line with
  | nil => cases h
  | cons c cs =>
    have hc : c = '#' := by
      simpa [beginsWithHash] using h
    subst hc
    have hl : leadingHashes ('#' :: cs) = leadingHashes cs + 1 := by
      simp [leadingHashes, List.takeWhile_cons]
    simp only [toc.hasPrefixHeader, ne_eq, not_true_eq_false, if_false, hasPrefixHeaderLoop_eq, hl]
    congr 1
    omega

/-- The instance of the amended C5 at the line `# Title` with `tocHeading` set: level 1. -/
theorem hasPrefixHeader_level_witness :
    beginsWithHash "# Title".toList ∧
      toc.hasPrefixHeader ⟨[], [], true, []⟩ "# Title".toList = (1, true) :=
  ⟨by decide, hasPrefixHeader_level ⟨[], [], true, []⟩ "# Title".toList (by decide)⟩

/-- Claim C6: the text `writeHeading n h` appends to the buffer starts with the indent
string repeated `n * 3` times, immediately followed by `* [`; with an indent of two
spaces and `tocHeading` unset, the document of the one line `## Title` yields the
entry of that heading behind exactly six spaces. -/
theorem writeHeading_indentation :
    (∀ (caseTable : Char → Char) (t : toc) (n : Nat) (h : GoString),
      ∃ rest, (t.writeHeading caseTable n h).buf =
        t.buf ++ ((List.replicate (n * 3) t.indentString).flatten ++ "* [".toList ++ rest)) ∧
    (∀ (caseTable : Char → Char) (b : GoString),
      toc.parse caseTable ⟨["## Title".toList], b, false, "  ".toList⟩ =
        .ok (⟨[], "      * [Title](#title)\n".toList, false, "  ".toList⟩, none)) ∧
    "      * [Title](#title)\n".toList = List.replicate 6 ' ' ++ "* [Title](#title)\n".toList := by
  refine ⟨?_, ?_, ?_⟩
  · intro caseTable t n h
    refine ⟨canonicalHeading h ++ "](#".toList ++ canonicalAnchor caseTable h ++ ")\n".toList, ?_⟩
    simp [toc.writeHeading, stringsRepeat]
  · intro caseTable b
    rfl
  · decide

/-- Claim C7: on every document on which `parse` does not panic, with `tocHeading`
set the buffer is the synthetic entry `* [Table Of Content](#table-of-content)`,
written at level 0 and so without indentation whatever the indent string, followed
by the entries of the document; with `tocHeading` unset the buffer holds the
entries of the document and nothing else. -/
theorem parse_synthetic_entry (caseTable : Char → Char) (t t1 : toc) (err : Option GoString)
    (h : t.parse caseTable = .ok (t1, err)) :
    (t.tocHeading = true →
      tocEntry caseTable t.indentString 0 "Table Of Content".toList =
          "* [Table Of Content](#table-of-content)\n".toList ∧
        t1.buf = "* [Table Of Content](#table-of-content)\n".toList ++
          (headingLines t.Reader).flatMap (lineEntry caseTable t)) ∧
    (t.tocHeading = false →
      t1.buf = (headingLines t.Reader).flatMap (lineEntry caseTable t)) := by
  rw [parse_eq] at h
  split at h
  · simp only [Except.ok.injEq, Prod.mk.injEq] at h
    obtain ⟨h1, _⟩ := h
    subst h1
    constructor
    · intro hth
      exact ⟨rfl, by simp [tocText, hth, syntheticEntry]⟩
    · intro hth
      simp [tocText, hth]
  · cases h

/-- The instance of C7 at the document of the one line `# Title` with `tocHeading` set. -/
theorem parse_synthetic_entry_witness :
    toc.parse id ⟨["# Title".toList], [], true, "\t".toList⟩ =
        .ok (⟨[], "* [Table Of Content](#table-of-content)\n\t\t\t* [Title](#title)\n".toList,
          true, "\t".toList⟩, none) ∧
      "* [Table Of Content](#table-of-content)\n\t\t\t* [Title](#title)\n".toList =
        "* [Table Of Content](#table-of-content)\n".toList ++
          (headingLines ["# Title".toList]).flatMap
            (lineEntry id ⟨["# Title".toList], [], true, "\t".toList⟩) :=
  ⟨by rfl, ((parse_synthetic_entry id ⟨["# Title".toList], [], true, "\t".toList⟩
      ⟨[], "* [Table Of Content](#table-of-content)\n\t\t\t* [Title](#title)\n".toList,
          true, "\t".toList⟩ none (by rfl)).1 rfl).2⟩

/-- Claim C8: `canonicalHeading` maps every rune of its argument on its own, in one
pass: `&`, `<`, `>` and the double quote to their escapes, a backtick to nothing and
every other rune to itself. So the text of an escape is not escaped again, the result
holds no `<`, `>`, double quote or backtick, and the label of the heading
text of the specification is as the specification gives it. -/
theorem canonicalHeading_one_pass :
    (∀ s : GoString, canonicalHeading s = s.flatMap labelRune) ∧
    canonicalHeading "<".toList = "&lt;".toList ∧
    canonicalHeading "<".toList ≠ "&amp;lt;".toList ∧
    (∀ (s : GoString) (c : Char), c ∈ canonicalHeading s →
      c ≠ '<' ∧ c ≠ '>' ∧ c ≠ '"' ∧ c ≠ '\x60') ∧
    canonicalHeading "Foo & \"Bar\"".toList = "Foo &amp; &#34;Bar&#34;".toList := by
  refine ⟨canonicalHeading_eq, by decide, by decide, ?_, by decide⟩
  intro s c hc
  rw [canonicalHeading_eq, List.mem_flatMap] at hc
  obtain ⟨x, _, hx⟩ := hc
  exact labelRune_mem x c hx

/-- Claim C9 fails as stated: whatever the case table, the anchor of the heading text
`Foo (Bar) Baz!` is not `foo-bar-baz`. -/
theorem canonicalAnchor_example_counterexample :
    ¬ ∃ caseTable : Char → Char,
      canonicalAnchor caseTable "Foo (Bar) Baz!".toList = "foo-bar-baz".toList := by
  rintro ⟨caseTable, h⟩
  have h1 : canonicalAnchor caseTable "Foo (Bar) Baz!".toList = "foo-bar-baz!".toList := rfl
  rw [h1] at h
  exact absurd h (by decide)

/-- Claim C9, amended: the anchor of the heading text `Foo (Bar) Baz!` is
`foo-bar-baz!`; the exclamation mark is not in the class of `specialChars` and
stays. -/
theorem canonicalAnchor_example (caseTable : Char → Char) :
    canonicalAnchor caseTable "Foo (Bar) Baz!".toList = "foo-bar-baz!".toList ∧
      '!' ∉ specialCharsClass := by
  exact ⟨rfl, by decide⟩

/-- Claim C10 fails as stated: the text of a dot, a tab and `a` has no
parenthesis, and whatever the case table a second application of `canonicalAnchor`
changes its anchor (the tab that the first one leaves in front is trimmed). -/
theorem canonicalAnchor_idempotent_counterexample :
    ('(' ∉ ".\ta".toList ∧ ')' ∉ ".\ta".toList) ∧
      ¬ ∃ caseTable : Char → Char,
        canonicalAnchor caseTable (canonicalAnchor caseTable ".\ta".toList) =
          canonicalAnchor caseTable ".\ta".toList := by
  refine ⟨by decide, ?_⟩
  rintro ⟨caseTable, h⟩
  have h1 : canonicalAnchor caseTable ".\ta".toList = "\ta".toList := rfl
  have h2 : canonicalAnchor caseTable "\ta".toList = "a".toList := rfl
  rw [h1, h2] at h
  exact absurd h (by decide)

/-- Claim C10, amended: `canonicalAnchor` is idempotent on every text that holds no
parenthesis and no white space other than the space character, for a case table
under which lowering is idempotent and yields white space only from white space. -/
theorem canonicalAnchor_idempotent (caseTable : Char → Char) (s : GoString)
    (hparen : '(' ∉ s ∧ ')' ∉ s)
    (hwhite : ∀ c ∈ s, unicodeIsSpace c = true → c = ' ')
    (hidem : ∀ r, unicodeToLower caseTable (unicodeToLower caseTable r) =
      unicodeToLower caseTable r)
    (hkeep : ∀ r, unicodeIsSpace (unicodeToLower caseTable r) = true →
      unicodeIsSpace r = true) :
    canonicalAnchor caseTable (canonicalAnchor caseTable s) = canonicalAnchor caseTable s := by
  apply canonicalAnchor_of_fixed
  · intro c hc
    rcases canonicalAnchor_mem caseTable s hparen.1 c hc with rfl | ⟨_, _, h, _⟩
    · decide
    · exact h
  · intro c hc
    rcases canonicalAnchor_mem caseTable s hparen.1 c hc with rfl | ⟨_, _, _, x, _, rfl⟩
    · rfl
    · exact hidem x
  · intro c hc
    rcases canonicalAnchor_mem caseTable s hparen.1 c hc with rfl | ⟨hne, _, _, x, hx, rfl⟩
    · decide
    · cases hsp : unicodeIsSpace (unicodeToLower caseTable x) with
      | false => rfl
      | true =>
        exfalso
        apply hne
        rw [hwhite x hx (hkeep x hsp)]
        rfl
  · intro hc
    rcases canonicalAnchor_mem caseTable s hparen.1 _ hc with h | ⟨_, h, _⟩
    · exact absurd h (by decide)
    · exact h rfl

/-- The instance of the amended C10 at the text ` What is: new? ` under the case table
that leaves every rune above ASCII as it is. -/
theorem canonicalAnchor_idempotent_witness :
    ('(' ∉ " What is: new? ".toList ∧ ')' ∉ " What is: new? ".toList) ∧
      (∀ c ∈ " What is: new? ".toList, unicodeIsSpace c = true → c = ' ') ∧
      canonicalAnchor id " What is: new? ".toList = "what-is-new".toList ∧
      canonicalAnchor id (canonicalAnchor id " What is: new? ".toList) =
        canonicalAnchor id " What is: new? ".toList :=
  ⟨by decide, by decide, by decide,
    canonicalAnchor_idempotent id " What is: new? ".toList (by decide) (by decide)
      unicodeToLower_id_idem unicodeToLower_id_space⟩

/-- Claim C11: for every string, the anchor `canonicalAnchor` returns holds no space
character, no backtick, none of the characters of the class of `specialChars` and
no ASCII uppercase letter; the case table is one that, like the Unicode tables, sends
no rune above ASCII to an ASCII uppercase letter. -/
theorem canonicalAnchor_alphabet (caseTable : Char → Char)
    (htable : ∀ r : Char, 127 < r.toNat → ¬ asciiUpper (caseTable r)) (s : GoString) :
    ∀ c ∈ canonicalAnchor caseTable s,
      c ≠ ' ' ∧ c ≠ '\x60' ∧ c ∉ "[]()':.?><&\"".toList ∧ ¬ (65 ≤ c.toNat ∧ c.toNat ≤ 90) := by
  intro c hc
  rcases canonicalAnchor_mem_all caseTable s c hc with rfl | ⟨h1, h2, h3, x, _, rfl⟩
  · decide
  · refine ⟨h1, h2, ?_, unicodeToLower_not_upper caseTable htable x⟩
    have h3m : unicodeToLower caseTable x ∉ specialCharsClass := by simpa using h3
    exact h3m

/-- The instance of C11 at a heading text with brackets, a group, a colon, backticks
and a question mark, under the case table that leaves every rune above ASCII as it is. -/
theorem canonicalAnchor_alphabet_witness :
    (∀ r : Char, 127 < r.toNat → ¬ asciiUpper (id r)) ∧
      canonicalAnchor id "Foo [Bar] (Baz): `Qux`?".toList = "foo-bar-baz-qux".toList ∧
      ∀ c ∈ canonicalAnchor id "Foo [Bar] (Baz): `Qux`?".toList,
        c ≠ ' ' ∧ c ≠ '\x60' ∧ c ∉ "[]()':.?><&\"".toList ∧ ¬ (65 ≤ c.toNat ∧ c.toNat ≤ 90) :=
  ⟨id_not_asciiUpper, by decide,
    canonicalAnchor_alphabet id id_not_asciiUpper "Foo [Bar] (Baz): `Qux`?".toList⟩

/-- Claim C12: `parse` panics with an index out of range if and only if the document
has a line outside fenced regions that begins with `#` and holds no space; on every
other document it returns, either with a text that is not empty and no error or with
an empty text and the error of the missing heading. The documents of the one line
`#foo` and of the one line `##` make it panic. -/
theorem parse_panics_iff :
    (∀ (caseTable : Char → Char) (t : toc),
      t.parse caseTable = .error Panic.indexOutOfRange ↔
        ∃ l ∈ headingLines t.Reader, ' ' ∉ l) ∧
    (∀ (caseTable : Char → Char) (t : toc),
      (¬ ∃ l ∈ headingLines t.Reader, ' ' ∉ l) →
        ∃ t1 : toc, (t.parse caseTable = .ok (t1, none) ∧ t1.buf ≠ []) ∨
          (t.parse caseTable = .ok (t1, some errNoHeading) ∧ t1.buf = [])) ∧
    (∀ (caseTable : Char → Char) (b indent : GoString) (th : Bool),
      toc.parse caseTable ⟨["#foo".toList], b, th, indent⟩ = .error Panic.indexOutOfRange) ∧
    (∀ (caseTable : Char → Char) (b indent : GoString) (th : Bool),
      toc.parse caseTable ⟨["text".toList, "##".toList], b, th, indent⟩ =
        .error Panic.indexOutOfRange) := by
  have hiff : ∀ (caseTable : Char → Char) (t : toc),
      t.parse caseTable = .error Panic.indexOutOfRange ↔
        ∃ l ∈ headingLines t.Reader, ' ' ∉ l := by
    intro caseTable t
    rw [parse_eq]
    by_cases hsp : ∀ l ∈ headingLines t.Reader, ' ' ∈ l
    · rw [if_pos hsp]
      constructor
      · intro h; cases h
      · rintro ⟨l, hl, hn⟩
        exact absurd (hsp l hl) hn
    · rw [if_neg hsp]
      constructor
      · intro _
        by_contra hcon
        apply hsp
        intro l hl
        by_contra hn
        exact hcon ⟨l, hl, hn⟩
      · intro _; rfl
  refine ⟨hiff, ?_, ?_, ?_⟩
  · intro caseTable t hno
    have hsp : ∀ l ∈ headingLines t.Reader, ' ' ∈ l := by
      intro l hl
      by_contra hn
      exact hno ⟨l, hl, hn⟩
    rw [parse_eq, if_pos hsp]
    refine ⟨{ t with Reader := [], buf := tocText caseTable t }, ?_⟩
    by_cases hb : tocText caseTable t = []
    · right
      exact ⟨by rw [if_pos hb], hb⟩
    · left
      exact ⟨by rw [if_neg hb], hb⟩
  · intro caseTable b indent th
    have hmem : "#foo".toList ∈ headingLines ["#foo".toList] := by decide
    exact (hiff caseTable _).2 ⟨"#foo".toList, hmem, by decide⟩
  · intro caseTable b indent th
    have hmem : "##".toList ∈ headingLines ["text".toList, "##".toList] := by decide
    exact (hiff caseTable _).2 ⟨"##".toList, hmem, by decide⟩

/-- Claim C13: for a line outside fenced regions that begins with `#` and holds a
space, the text handed to both canonicalizers is `p[1]`, the part of the line after
its first space: the line is a prefix without space, a space and that text, and no
other text fits this pattern. The iteration of the loop on such a line appends to the
buffer the indentation, `* [`, the canonical heading of that text, `](#`, the
canonical anchor of that text and `)` with a newline, and leaves the rest of the
state as it is. -/
theorem heading_text_after_first_space (caseTable : Char → Char) (t : toc) (line : GoString)
    (hhash : beginsWithHash line) (hsp : ' ' ∈ line) :
    (∃ pre : GoString, line = pre ++ ' ' :: afterFirstSpace line ∧ ' ' ∉ pre) ∧
    (∀ pre text : GoString, line = pre ++ ' ' :: text → ' ' ∉ pre →
      text = afterFirstSpace line) ∧
    (stringsSplitN2 line)[1]? = some (afterFirstSpace line) ∧
    parseLine caseTable t false line =
      .ok ({ t with
              buf := t.buf ++
                ((List.replicate ((t.hasPrefixHeader line).1 * 3) t.indentString).flatten ++
                  "* [".toList ++ canonicalHeading (afterFirstSpace line) ++ "](#".toList ++
                  canonicalAnchor caseTable (afterFirstSpace line) ++ ")\n".toList) },
        false) := by
  refine ⟨⟨_, takeWhile_ne_space line hsp⟩, ?_, ?_, ?_⟩
  · intro pre text hl hpre
    rw [hl, afterFirstSpace_append pre text hpre]
  · rw [stringsSplitN2_second, if_pos hsp]
  · have hm : ¬ fenceMarker line := by
      intro hm
      cases line with
      | nil => cases hhash
      | cons c cs =>
        have hc : c = '#' := by simpa [beginsWithHash] using hhash
        subst hc
        have h3 := congrArg List.head? hm
        simp [fenceMarker] at h3
    have hentry : lineEntry caseTable t line =
        (List.replicate ((t.hasPrefixHeader line).1 * 3) t.indentString).flatten ++
          "* [".toList ++ canonicalHeading (afterFirstSpace line) ++ "](#".toList ++
          canonicalAnchor caseTable (afterFirstSpace line) ++ ")\n".toList := by
      unfold lineEntry tocEntry
      rw [Nat.mul_comm]
    rw [parseLine_eq, if_neg hm, if_neg (by decide), if_pos hhash, if_pos hsp, hentry]

/-- The instances of C13 at the lines `##foo bar baz` and `#  Title`, with an indent of
two spaces and an entry already in the buffer: the texts are `bar baz` and ` Title`,
and the entries appended are those of these texts. -/
theorem heading_text_after_first_space_witness :
    (beginsWithHash "##foo bar baz".toList ∧ ' ' ∈ "##foo bar baz".toList) ∧
      (beginsWithHash "#  Title".toList ∧ ' ' ∈ "#  Title".toList) ∧
      (stringsSplitN2 "##foo bar baz".toList)[1]? = some "bar baz".toList ∧
      (stringsSplitN2 "#  Title".toList)[1]? = some " Title".toList ∧
      parseLine id ⟨[], "* [A](#a)\n".toList, false, "  ".toList⟩ false
          "##foo bar baz".toList =
        .ok (⟨[], "* [A](#a)\n      * [bar baz](#bar-baz)\n".toList, false, "  ".toList⟩,
          false) ∧
      parseLine id ⟨[], "* [A](#a)\n".toList, false, "  ".toList⟩ false "#  Title".toList =
        .ok (⟨[], "* [A](#a)\n* [ Title](#title)\n".toList, false, "  ".toList⟩, false) :=
  ⟨by decide, by decide,
    (heading_text_after_first_space id ⟨[], "* [A](#a)\n".toList, false, "  ".toList⟩
      "##foo bar baz".toList (by decide) (by decide)).2.2.1,
    (heading_text_after_first_space id ⟨[], "* [A](#a)\n".toList, false, "  ".toList⟩
      "#  Title".toList (by decide) (by decide)).2.2.1,
    (heading_text_after_first_space id ⟨[], "* [A](#a)\n".toList, false, "  ".toList⟩
      "##foo bar baz".toList (by decide) (by decide)).2.2.2,
    (heading_text_after_first_space id ⟨[], "* [A](#a)\n".toList, false, "  ".toList⟩
      "#  Title".toList (by decide) (by decide)).2.2.2⟩

/-- Claim C14, at the input on which the code departs from it: with exactly one
positional argument `main` does not open that argument but `./README.md`, because it
takes `args[0]` only when there are more than one argument. The empty argument list
gives `./README.md`, as the claim says, and two or more arguments give the first. -/
theorem mainPath_one_argument :
    (∀ p : GoString, mainPath [p] = "./README.md".toList) ∧
    mainPath ["doc.md".toList] = "./README.md".toList ∧
    mainPath ["doc.md".toList] ≠ "doc.md".toList ∧
    mainPath [] = "./README.md".toList ∧
    (∀ (p q : GoString) (rest : List GoString), mainPath (p :: q :: rest) = p) := by
  refine ⟨fun _ => rfl, rfl, by decide, rfl, ?_⟩
  intro p q rest
  simp [mainPath]

/-- Claim C15 fails as stated: there is no string for which escaping and then removing
the backticks differs from removing the backticks and then escaping. -/
theorem canonicalHeading_order_counterexample :
    ¬ ∃ s : GoString, removeDashes (htmlEscaper s) ≠ htmlEscaper (removeDashes s) := by
  rintro ⟨s, h⟩
  apply h
  have h1 : removeDashes (htmlEscaper s) = s.flatMap labelRune := canonicalHeading_eq s
  rw [h1, htmlEscaper_removeDashes]

/-- Claim C15, amended: in `canonicalHeading` the order of the two steps does not
matter; for every string, escaping and then removing the backticks gives the same
text as removing the backticks and then escaping. -/
theorem canonicalHeading_order (s : GoString) :
    removeDashes (htmlEscaper s) = htmlEscaper (removeDashes s) ∧
      canonicalHeading s = htmlEscaper (removeDashes s) := by
  have h1 : removeDashes (htmlEscaper s) = s.flatMap labelRune := canonicalHeading_eq s
  exact ⟨by rw [h1, htmlEscaper_removeDashes], by rw [canonicalHeading_eq, htmlEscaper_removeDashes]⟩

/-- Claim C16: with `tocHeading` unset, for every indent string and all documents `d1`
and `d2` such that `d1` has an even number of fence markers and the lines outside
fenced regions that begin with `#` hold a space, in `d1` and in `d2`, `parse` returns
on `d1`, on `d2` and on `d1 ++ d2`, and the text for `d1 ++ d2` is the text for `d1`
followed by the text for `d2`. -/
theorem parse_append (caseTable : Char → Char) (b indent : GoString) (d1 d2 : List GoString)
    (heven : fenceMarkerCount d1 % 2 = 0)
    (h1 : ∀ l ∈ headingLines d1, ' ' ∈ l) (h2 : ∀ l ∈ headingLines d2, ' ' ∈ l) :
    ∃ (x1 x2 : GoString) (e1 e2 e12 : Option GoString),
      toc.parse caseTable ⟨d1, b, false, indent⟩ = .ok (⟨[], x1, false, indent⟩, e1) ∧
      toc.parse caseTable ⟨d2, b, false, indent⟩ = .ok (⟨[], x2, false, indent⟩, e2) ∧
      toc.parse caseTable ⟨d1 ++ d2, b, false, indent⟩ =
        .ok (⟨[], x1 ++ x2, false, indent⟩, e12) := by
  have h12 : ∀ l ∈ headingLines (d1 ++ d2), ' ' ∈ l := by
    intro l hl
    rw [headingLines_append d1 d2 heven, List.mem_append] at hl
    rcases hl with hl | hl
    · exact h1 l hl
    · exact h2 l hl
  refine ⟨tocText caseTable ⟨d1, b, false, indent⟩, tocText caseTable ⟨d2, b, false, indent⟩,
    if tocText caseTable ⟨d1, b, false, indent⟩ = [] then some errNoHeading else none,
    if tocText caseTable ⟨d2, b, false, indent⟩ = [] then some errNoHeading else none,
    if tocText caseTable ⟨d1 ++ d2, b, false, indent⟩ = [] then some errNoHeading else none,
    ?_, ?_, ?_⟩
  · rw [parse_eq, if_pos h1]
  · rw [parse_eq, if_pos h2]
  · rw [parse_eq, if_pos h12, tocText_append caseTable b indent d1 d2 heven]

/-- The instance of C16 at a document that closes its fence, followed by a document of
one heading. -/
theorem parse_append_witness :
    fenceMarkerCount ["# A b".toList, "```".toList, "# x".toList, "```".toList] % 2 = 0 ∧
      (∀ l ∈ headingLines ["# A b".toList, "```".toList, "# x".toList, "```".toList],
        ' ' ∈ l) ∧
      (∀ l ∈ headingLines ["## C".toList], ' ' ∈ l) ∧
      ∃ (x1 x2 : GoString) (e1 e2 e12 : Option GoString),
        toc.parse id ⟨["# A b".toList, "```".toList, "# x".toList, "```".toList], [], false,
            "  ".toList⟩ = .ok (⟨[], x1, false, "  ".toList⟩, e1) ∧
        toc.parse id ⟨["## C".toList], [], false, "  ".toList⟩ =
          .ok (⟨[], x2, false, "  ".toList⟩, e2) ∧
        toc.parse id ⟨["# A b".toList, "```".toList, "# x".toList, "```".toList] ++
            ["## C".toList], [], false, "  ".toList⟩ =
          .ok (⟨[], x1 ++ x2, false, "  ".toList⟩, e12) :=
  ⟨by decide, by decide, by decide,
    parse_append id [] "  ".toList ["# A b".toList, "```".toList, "# x".toList, "```".toList]
      ["## C".toList] (by decide) (by decide) (by decide)⟩

end Gtoc
